import Mathlib

/-!
Verification of the `example_extension` C module (file `example_extension.c`).

The module exposes a single function `compute_intensive`: it parses one
native `int` argument `n` from the Python argument tuple and runs

    double result = 0.0;
    for (int i = 0; i < n; i++)
      for (int j = 0; j < n; j++)
        result += sin(i) * cos(j);

returning `result` as a Python float.

The embedding keeps the double-precision arithmetic abstract: a structure
`FP F` packages the scalar type together with its zero, addition,
multiplication and the composites `sinI i = sin((double) i)`,
`cosI j = cos((double) j)`.  Theorems about the shape and order of the
computation are proved for every interpretation of these operations (IEEE
binary64 with any libm in particular); value-level facts are proved for the
real-number interpretation `realOps`, the idealisation of binary64, or for
any interpretation satisfying the few concrete identities the fact needs.

The loop itself is embedded twice, and the two embeddings are linked:
  * `step` / `runSteps`, a small-step machine mirroring the C statements,
    with `int` counters modelled as `Int` (used for termination and
    counter-safety claims);
  * `computeIntensive`, the nested left fold the loops denote.
-/

namespace ProfilingToolkit

/-- Abstract interpretation of the C `double` scalar arithmetic used by
`compute_intensive`: `zero` is the literal `0.0`, `add`/`mul` the
double-precision `+` and `*`, and `sinI i` / `cosI j` stand for
`sin((double) i)` / `cos((double) j)` — the `int`-to-`double` conversion
composed with the libm routine. -/
structure FP (F : Type) where
  zero : F
  add : F → F → F
  mul : F → F → F
  sinI : Int → F
  cosI : Int → F

/-- The real-number interpretation of the double arithmetic: the exact
idealisation of IEEE binary64 with correctly-rounded libm. -/
noncomputable def realOps : FP ℝ where
  zero := 0
  add := fun a b => a + b
  mul := fun a b => a * b
  sinI := fun i => Real.sin (i : ℝ)
  cosI := fun j => Real.cos (j : ℝ)

/-- A state of the nested loops of `compute_intensive`: the two `int`
counters (modelled as unbounded `Int`, so that an overflow would be
visible as a counter leaving the native range) and the accumulator. -/
structure LoopSt (F : Type) where
  i : Int
  j : Int
  acc : F
  deriving Repr

/-- One step of the nested loops, mirroring the C control flow:
if `i < n` fails the function is done (`none`); otherwise if `j < n` the
body runs (`result += sin(i) * cos(j); j++`); otherwise the inner loop is
exhausted, so `i++` and `j` restarts at `0`. -/
def step {F : Type} (ops : FP F) (n : Int) (s : LoopSt F) : Option (LoopSt F) :=
  if s.i < n then
    if s.j < n then
      some ⟨s.i, s.j + 1, ops.add s.acc (ops.mul (ops.sinI s.i) (ops.cosI s.j))⟩
    else
      some ⟨s.i + 1, 0, s.acc⟩
  else
    none

/-- Run at most `k` machine steps (a halted state stays put). -/
def runSteps {F : Type} (ops : FP F) (n : Int) : Nat → LoopSt F → LoopSt F
  | 0, s => s
  | k + 1, s =>
    match step ops n s with
    | some t => runSteps ops n k t
    | none => s

/-- The state at the top of the outer loop: `i = 0`, `j = 0`,
`result = 0.0`. -/
def initSt {F : Type} (ops : FP F) : LoopSt F := ⟨0, 0, ops.zero⟩

/-- The states the machine reaches from the initial state. -/
def Reachable {F : Type} (ops : FP F) (n : Int) (s : LoopSt F) : Prop :=
  ∃ k : Nat, runSteps ops n k (initSt ops) = s

/-- Denotation of the inner loop `for (j = 0; j < n; j++) acc += sin(i)*cos(j)`
as a left fold over `j = 0, …, n-1`. -/
def innerLoop {F : Type} (ops : FP F) (n i : Int) (acc : F) : F :=
  (List.range n.toNat).foldl
    (fun a (j : Nat) => ops.add a (ops.mul (ops.sinI i) (ops.cosI (j : Int)))) acc

/-- Denotation of `compute_intensive`'s nested loops: the outer fold over
`i = 0, …, n-1` of the inner fold, started from `0.0`. -/
def computeIntensive {F : Type} (ops : FP F) (n : Int) : F :=
  (List.range n.toNat).foldl (fun a (i : Nat) => innerLoop ops n (i : Int) a) ops.zero

/-- The iteration grid in strict `i`-major, `j`-minor order:
`(0,0), (0,1), …, (0,n-1), (1,0), …, (n-1,n-1)`. -/
def pairList (n : Int) : List (Int × Int) :=
  (List.range n.toNat).flatMap
    (fun (i : Nat) => (List.range n.toNat).map (fun (j : Nat) => ((i : Int), (j : Int))))

/-- The accumulation the specification prescribes: a single left fold of
`acc + sin(i) * cos(j)` over the `i`-major, `j`-minor ordered grid,
started from `0.0`. -/
def pairFold {F : Type} (ops : FP F) (n : Int) : F :=
  (pairList n).foldl
    (fun a p => ops.add a (ops.mul (ops.sinI p.1) (ops.cosI p.2))) ops.zero

theorem runSteps_halted {F : Type} (ops : FP F) (n : Int) (s : LoopSt F)
    (h : step ops n s = Option.none) : ∀ k, runSteps ops n k s = s := by
  intro k
  induction k with
  | zero => rfl
  | succ k ih => simp [runSteps, h]

theorem runSteps_add {F : Type} (ops : FP F) (n : Int) (k₁ k₂ : Nat) (s : LoopSt F) :
    runSteps ops n (k₁ + k₂) s = runSteps ops n k₂ (runSteps ops n k₁ s) := by
  induction k₁ generalizing s with
  | zero => rw [Nat.zero_add]; rfl
  | succ k ih =>
    have : k + 1 + k₂ = (k + k₂) + 1 := by omega
    rw [this]
    cases hs : step ops n s with
    | none =>
      rw [runSteps, hs]
      rw [runSteps, hs]
      exact (runSteps_halted ops n s hs k₂).symm
    | some t =>
      rw [runSteps, hs]
      rw [runSteps, hs]
      exact ih t

theorem runSteps_some {F : Type} (ops : FP F) (n : Int) {s t : LoopSt F}
    (h : step ops n s = some t) (k : Nat) :
    runSteps ops n (k + 1) s = runSteps ops n k t := by
  simp only [runSteps, h]

theorem runSteps_inner {F : Type} (ops : FP F) (n : Int) :
    ∀ (m : Nat) (i j : Int) (a : F), i < n → j + (m : Int) = n →
    runSteps ops n (m + 1) ⟨i, j, a⟩ =
      ⟨i + 1, 0, (List.range m).foldl
        (fun acc (t : Nat) => ops.add acc (ops.mul (ops.sinI i) (ops.cosI (j + (t : Int))))) a⟩ := by
  intro m
  induction m with
  | zero =>
    intro i j a hi hj
    have hj2 : ¬ j < n := by omega
    simp [runSteps, step, hi, hj2]
  | succ m ih =>
    intro i j a hi hj
    have hjn : j < n := by push_cast at hj; omega
    have hstep : step ops n ⟨i, j, a⟩ =
        some ⟨i, j + 1, ops.add a (ops.mul (ops.sinI i) (ops.cosI j))⟩ := by
      simp [step, hi, hjn]
    show runSteps ops n (m + 1 + 1) _ = _
    rw [runSteps_some ops n hstep (m + 1)]
    have hj3 : (j + 1) + (m : Int) = n := by push_cast at hj ⊢; omega
    rw [ih i (j + 1) _ hi hj3]
    rw [List.range_succ_eq_map, List.foldl_cons, List.foldl_map]
    have h1 : (fun (x : F) (y : Nat) =>
          ops.add x (ops.mul (ops.sinI i) (ops.cosI (j + (Nat.succ y : Int)))))
        = fun (x : F) (y : Nat) =>
          ops.add x (ops.mul (ops.sinI i) (ops.cosI ((j + 1) + (y : Int)))) := by
      funext x y
      have hy : j + (Nat.succ y : Int) = (j + 1) + (y : Int) := by push_cast; omega
      rw [hy]
    have h2 : j + ((0 : Nat) : Int) = j := by simp
    rw [h1, h2]

theorem runSteps_outer {F : Type} (ops : FP F) (n : Int) :
    ∀ (m : Nat) (i : Int) (a : F), 0 ≤ i → i + (m : Int) = n →
    runSteps ops n (m * (n.toNat + 1)) ⟨i, 0, a⟩ =
      ⟨n, 0, (List.range m).foldl
        (fun acc (t : Nat) => innerLoop ops n (i + (t : Int)) acc) a⟩ := by
  intro m
  induction m with
  | zero =>
    intro i a h0 hj
    have hin : i = n := by push_cast at hj; omega
    simp [runSteps, hin]
  | succ m ih =>
    intro i a h0 hj
    have hi : i < n := by push_cast at hj; omega
    have hn0 : 0 ≤ n := by omega
    have hfuel : (m + 1) * (n.toNat + 1) = (n.toNat + 1) + m * (n.toNat + 1) := by ring
    rw [hfuel, runSteps_add]
    have hcast : (0 : Int) + ((n.toNat : Nat) : Int) = n := by
      rw [Int.toNat_of_nonneg hn0]; omega
    rw [runSteps_inner ops n n.toNat i 0 a hi hcast]
    have hrow : (List.range n.toNat).foldl
        (fun acc (t : Nat) =>
          ops.add acc (ops.mul (ops.sinI i) (ops.cosI ((0 : Int) + (t : Int))))) a
        = innerLoop ops n i a := by
      unfold innerLoop
      simp only [zero_add]
    rw [hrow]
    have hj2 : (i + 1) + (m : Int) = n := by push_cast at hj ⊢; omega
    rw [ih (i + 1) (innerLoop ops n i a) (by omega) hj2]
    rw [List.range_succ_eq_map, List.foldl_cons, List.foldl_map]
    have h1 : (fun (x : F) (y : Nat) => innerLoop ops n (i + (Nat.succ y : Int)) x)
        = fun (x : F) (y : Nat) => innerLoop ops n ((i + 1) + (y : Int)) x := by
      funext x y
      congr 1
      push_cast
      ring
    have h2 : i + ((0 : Nat) : Int) = i := by simp
    rw [h1, h2]

theorem foldl_grid {F : Type} (ops : FP F) (n : Int) :
    ∀ (l : List Nat) (b : F),
      ((l.flatMap (fun (i : Nat) =>
          (List.range n.toNat).map (fun (j : Nat) => ((i : Int), (j : Int))))).foldl
        (fun a p => ops.add a (ops.mul (ops.sinI p.1) (ops.cosI p.2))) b)
      = l.foldl (fun a (i : Nat) => innerLoop ops n (i : Int) a) b := by
  intro l
  induction l with
  | nil => intro b; rfl
  | cons x xs ih =>
    intro b
    rw [List.flatMap_cons, List.foldl_append, List.foldl_cons, ih, List.foldl_map]
    rfl

/-- The nested left folds of the two loops flatten to a single left fold
over the `i`-major, `j`-minor ordered grid. -/
theorem computeIntensive_eq_pairFold {F : Type} (ops : FP F) (n : Int) :
    computeIntensive ops n = pairFold ops n := by
  unfold computeIntensive pairFold pairList
  exact (foldl_grid ops n (List.range n.toNat) ops.zero).symm

/-- The machine reaches, in `n.toNat * (n.toNat + 1)` steps, a halted state
whose accumulator is the nested-fold denotation of the loops. -/
theorem runSteps_final {F : Type} (ops : FP F) (n : Int) :
    step ops n (runSteps ops n (n.toNat * (n.toNat + 1)) (initSt ops)) = Option.none ∧
      (runSteps ops n (n.toNat * (n.toNat + 1)) (initSt ops)).acc = computeIntensive ops n := by
  by_cases hn : 0 ≤ n
  · have hcast : (0 : Int) + ((n.toNat : Nat) : Int) = n := by
      rw [Int.toNat_of_nonneg hn]; omega
    have h := runSteps_outer ops n n.toNat 0 ops.zero le_rfl hcast
    rw [show (initSt ops : LoopSt F) = ⟨0, 0, ops.zero⟩ from rfl, h]
    constructor
    · simp [step]
    · show (List.range n.toNat).foldl
          (fun acc (t : Nat) => innerLoop ops n ((0 : Int) + (t : Int)) acc) ops.zero
        = computeIntensive ops n
      unfold computeIntensive
      simp only [zero_add]
  · have hn0 : n.toNat = 0 := Int.toNat_of_nonpos (by omega)
    have hlt : ¬ (0 : Int) < n := by omega
    have hstop : step ops n (initSt ops) = Option.none := by
      simp [initSt, step, hlt]
    rw [hn0]
    simp only [Nat.zero_mul, runSteps]
    refine ⟨hstop, ?_⟩
    simp [initSt, computeIntensive, hn0]

theorem runSteps_inv {F : Type} (ops : FP F) (n : Int) (P : LoopSt F → Prop)
    (hstep : ∀ s t, P s → step ops n s = some t → P t) :
    ∀ (k : Nat) (s : LoopSt F), P s → P (runSteps ops n k s) := by
  intro k
  induction k with
  | zero => intro s h; exact h
  | succ k ih =>
    intro s h
    cases hs : step ops n s with
    | none => simp only [runSteps, hs]; exact h
    | some t => simp only [runSteps, hs]; exact ih t (hstep s t h hs)

/-- Every reachable state keeps both counters within `[0, max n 0]`: the
loop counters never pass `n`. -/
theorem reachable_counters {F : Type} (ops : FP F) (n : Int) (s : LoopSt F)
    (h : Reachable ops n s) :
    0 ≤ s.i ∧ s.i ≤ max n 0 ∧ 0 ≤ s.j ∧ s.j ≤ max n 0 := by
  obtain ⟨k, hk⟩ := h
  rw [← hk]
  refine runSteps_inv ops n
    (fun u => 0 ≤ u.i ∧ u.i ≤ max n 0 ∧ 0 ≤ u.j ∧ u.j ≤ max n 0) ?_ k (initSt ops) ?_
  · intro u t hu ht
    unfold step at ht
    by_cases h1 : u.i < n
    · by_cases h2 : u.j < n
      · rw [if_pos h1, if_pos h2, Option.some.injEq] at ht
        rw [← ht]
        simp only
        omega
      · rw [if_pos h1, if_neg h2, Option.some.injEq] at ht
        rw [← ht]
        simp only
        omega
    · rw [if_neg h1] at ht
      exact absurd ht (Option.noConfusion)
  · refine ⟨le_refl 0, ?_, le_refl 0, ?_⟩ <;> exact le_max_right n 0

/-- In the real interpretation, every reachable state's accumulator is
bounded in magnitude by `i * n + j`, the number of terms added so far,
itself at most `n * n`. -/
theorem reachable_acc_le (n : Int) (s : LoopSt ℝ) (h : Reachable realOps n s) :
    |s.acc| ≤ ((s.i * n + s.j : Int) : ℝ) ∧ s.i * n + s.j ≤ n * n ∧
      0 ≤ s.i ∧ s.i ≤ max n 0 ∧ 0 ≤ s.j ∧ s.j ≤ max n 0 := by
  obtain ⟨k, hk⟩ := h
  rw [← hk]
  refine runSteps_inv realOps n
    (fun u => |u.acc| ≤ ((u.i * n + u.j : Int) : ℝ) ∧ u.i * n + u.j ≤ n * n ∧
      0 ≤ u.i ∧ u.i ≤ max n 0 ∧ 0 ≤ u.j ∧ u.j ≤ max n 0) ?_ k (initSt realOps) ?_
  · intro u t hu ht
    obtain ⟨hacc, hcnt, hi0, hiM, hj0, hjM⟩ := hu
    unfold step at ht
    by_cases h1 : u.i < n
    · by_cases h2 : u.j < n
      · rw [if_pos h1, if_pos h2, Option.some.injEq] at ht
        rw [← ht]
        simp only
        refine ⟨?_, by nlinarith, by omega, by omega, by omega, by omega⟩
        have hterm : |realOps.mul (realOps.sinI u.i) (realOps.cosI u.j)| ≤ 1 := by
          show |Real.sin (u.i : ℝ) * Real.cos (u.j : ℝ)| ≤ 1
          rw [abs_mul]
          calc |Real.sin (u.i : ℝ)| * |Real.cos (u.j : ℝ)|
              ≤ 1 * 1 :=
                mul_le_mul (Real.abs_sin_le_one _) (Real.abs_cos_le_one _)
                  (abs_nonneg _) zero_le_one
            _ = 1 := one_mul 1
        calc |realOps.add u.acc (realOps.mul (realOps.sinI u.i) (realOps.cosI u.j))|
            ≤ |u.acc| + |realOps.mul (realOps.sinI u.i) (realOps.cosI u.j)| :=
              abs_add _ _
          _ ≤ ((u.i * n + u.j : Int) : ℝ) + 1 := add_le_add hacc hterm
          _ = ((u.i * n + (u.j + 1) : Int) : ℝ) := by push_cast; ring
      · rw [if_pos h1, if_neg h2, Option.some.injEq] at ht
        rw [← ht]
        simp only
        have hjn : u.j = n := by omega
        refine ⟨?_, by nlinarith, by omega, by omega, by omega, by omega⟩
        have heq : ((u.i + 1) * n + 0 : Int) = u.i * n + u.j := by rw [hjn]; ring
        rw [heq]
        exact hacc
    · rw [if_neg h1] at ht
      exact absurd ht (Option.noConfusion)
  · refine ⟨?_, ?_, le_refl 0, le_max_right n 0, le_refl 0, le_max_right n 0⟩
    · show |realOps.zero| ≤ (((0 : Int) * n + 0 : Int) : ℝ)
      simp [realOps]
    · show (0 : Int) * n + 0 ≤ n * n
      simpa using mul_self_nonneg n

section PythonBoundary

/-- Modelled from the spec: the values a caller can put in the argument
tuple of `compute_intensive` — an integer, a float or a string (the spec's
examples of a wrong-type argument).  The CPython object model is not part
of this repository. -/
inductive PyValue where
  | int (k : Int)
  | float (x : ℝ)
  | str (s : String)

/-- Modelled from the spec: the one error kind, `InvalidArgument`, "raised
when the supplied argument cannot be interpreted as an integer (wrong
type, wrong count)". -/
inductive PyErr where
  | invalidArgument
  deriving DecidableEq, Repr

/-- Modelled from the spec: `PyArg_ParseTuple(args, "i", &n)` — CPython's
argument parser is not part of this repository.  Per the spec it yields
the integer exactly when the tuple holds a single integer representable
as a native signed integer ("up to the native integer range", 32-bit
`int`), and fails on a wrong type, a wrong argument count, or a value
outside that range. -/
def parseTupleI (args : List PyValue) : Option Int :=
  match args with
  | [PyValue.int k] => if -(2 ^ 31) ≤ k ∧ k < 2 ^ 31 then some k else none
  | _ => none

/-- The whole `compute_intensive` entry point: parse the single `int`
argument; on failure signal `InvalidArgument` without computing anything;
on success run the nested loops and return the accumulated value. -/
def computeIntensivePy {F : Type} (ops : FP F) (args : List PyValue) : Except PyErr F :=
  match parseTupleI args with
  | some n => Except.ok (computeIntensive ops n)
  | none => Except.error PyErr.invalidArgument

/-- The module's mutable global state.  `example_extension.c` declares no
writable globals — the method table and the module definition are never
written after initialisation — so the state carries no data. -/
def ModuleState : Type := Unit

/-- A call through the module boundary: the C function reads no module
state and writes none, so the call returns the state unchanged alongside
the value of `computeIntensivePy`. -/
def computeIntensiveCall {F : Type} (ops : FP F) (st : ModuleState)
    (args : List PyValue) : ModuleState × Except PyErr F :=
  (st, computeIntensivePy ops args)

/-- `parseTupleI` succeeds with `k` exactly when the argument tuple is the
single native-range integer `k`. -/
theorem parseTupleI_eq_some (args : List PyValue) (k : Int) :
    parseTupleI args = some k ↔
      args = [PyValue.int k] ∧ -(2 ^ 31) ≤ k ∧ k < 2 ^ 31 := by
  cases args with
  | nil => simp [parseTupleI]
  | cons v rest =>
    cases rest with
    | nil =>
      cases v with
      | int m =>
        by_cases hm : -(2 ^ 31) ≤ m ∧ m < 2 ^ 31
        · simp only [parseTupleI, if_pos hm, Option.some.injEq, List.cons.injEq,
            PyValue.int.injEq, and_true]
          constructor
          · rintro rfl
            exact ⟨rfl, hm⟩
          · rintro ⟨h1, _⟩
            exact h1
        · simp only [parseTupleI, if_neg hm]
          constructor
          · intro h
            exact absurd h (by simp)
          · rintro ⟨h1, h2⟩
            cases h1
            exact absurd h2 hm
      | float x => simp [parseTupleI]
      | str s => simp [parseTupleI]
    | cons w r2 =>
      cases v <;> simp [parseTupleI]

end PythonBoundary

/-- C1: for every integer `n` (every non-negative `n` in particular),
`compute_intensive(n)` runs the nested loops to completion and the value it
returns is exactly the left-fold accumulation, starting from `0.0`, of
`sin(i) * cos(j)` over all pairs `(i, j)` with `0 ≤ i < n` and
`0 ≤ j < n`, in strict `i`-major, `j`-minor order — one addition per pair,
for every interpretation of the double-precision operations (IEEE binary64
with any libm in particular). -/
theorem compute_intensive_accumulates_in_order {F : Type} (ops : FP F) (n : Int) :
    step ops n (runSteps ops n (n.toNat * (n.toNat + 1)) (initSt ops)) = Option.none ∧
      (runSteps ops n (n.toNat * (n.toNat + 1)) (initSt ops)).acc = pairFold ops n := by
  obtain ⟨h1, h2⟩ := runSteps_final ops n
  exact ⟨h1, h2.trans (computeIntensive_eq_pairFold ops n)⟩

/-- C2: the entry point fails with `InvalidArgument` exactly when the
argument tuple is not a single native-range integer; every failure is
`InvalidArgument` (the error type has no other value), and on every
non-failing input the returned value is the loop computation on the parsed
integer — no other failure mode exists. -/
theorem compute_intensive_error_iff {F : Type} (ops : FP F) (args : List PyValue) :
    (computeIntensivePy ops args = Except.error PyErr.invalidArgument ↔
      ¬ ∃ k : Int, args = [PyValue.int k] ∧ -(2 ^ 31) ≤ k ∧ k < 2 ^ 31) ∧
    (computeIntensivePy ops args = Except.error PyErr.invalidArgument ∨
      ∃ k : Int, args = [PyValue.int k] ∧
        computeIntensivePy ops args = Except.ok (computeIntensive ops k)) := by
  cases hp : parseTupleI args with
  | none =>
    have hne : ¬ ∃ k : Int, args = [PyValue.int k] ∧ -(2 ^ 31) ≤ k ∧ k < 2 ^ 31 := by
      rintro ⟨k, hk⟩
      rw [← parseTupleI_eq_some args k] at hk
      rw [hp] at hk
      exact Option.noConfusion hk
    exact ⟨iff_of_true (by simp [computeIntensivePy, hp]) hne,
      Or.inl (by simp [computeIntensivePy, hp])⟩
  | some k =>
    have hk := (parseTupleI_eq_some args k).mp hp
    constructor
    · simp only [computeIntensivePy, hp]
      constructor
      · intro h
        exact absurd h (by simp)
      · intro h
        exact absurd ⟨k, hk⟩ h
    · exact Or.inr ⟨k, hk.1, by simp [computeIntensivePy, hp]⟩

/-- C3: for every integer `n ≤ 0` the nested loops run zero iterations —
the machine halts at once from the initial state — and the returned value
is exactly the initial accumulator `0.0`, for every interpretation of the
double arithmetic. -/
theorem compute_intensive_nonpositive_zero {F : Type} (ops : FP F) (n : Int)
    (hn : n ≤ 0) :
    computeIntensive ops n = ops.zero ∧ step ops n (initSt ops) = Option.none := by
  have ht : n.toNat = 0 := Int.toNat_of_nonpos hn
  have hlt : ¬ (0 : Int) < n := by omega
  exact ⟨by simp [computeIntensive, ht], by simp [step, initSt, hlt]⟩

theorem compute_intensive_nonpositive_zero_witness :
    (-3 : Int) ≤ 0 ∧
      (computeIntensive realOps (-3) = realOps.zero ∧
        step realOps (-3) (initSt realOps) = Option.none) :=
  ⟨by norm_num, compute_intensive_nonpositive_zero realOps (-3) (by norm_num)⟩

/-- C4: the function is pure and deterministic — a call's result depends on
the arguments alone (two calls under different module states agree), and a
call leaves the module state exactly as it found it. -/
theorem compute_intensive_pure {F : Type} (ops : FP F) (st₁ st₂ : ModuleState)
    (args : List PyValue) :
    (computeIntensiveCall ops st₁ args).2 = (computeIntensiveCall ops st₂ args).2 ∧
      (computeIntensiveCall ops st₁ args).1 = st₁ :=
  ⟨rfl, rfl⟩

/-- C5: `compute_intensive(1)` returns exactly `0.0`: the single term is
`sin(0) * cos(0)`, and any double arithmetic in which `sin(0) = 0.0`,
`0.0 * cos(0) = 0.0` and `0.0 + 0.0 = 0.0` — IEEE binary64 among them —
accumulates it to `0.0`. -/
theorem compute_intensive_one {F : Type} (ops : FP F)
    (hsin : ops.sinI 0 = ops.zero)
    (hmul : ops.mul ops.zero (ops.cosI 0) = ops.zero)
    (hadd : ops.add ops.zero ops.zero = ops.zero) :
    computeIntensive ops 1 = ops.zero := by
  have h : computeIntensive ops 1 = ops.add ops.zero (ops.mul (ops.sinI 0) (ops.cosI 0)) := by
    have hr : List.range 1 = [0] := rfl
    simp [computeIntensive, innerLoop, hr]
  rw [h, hsin, hmul, hadd]

theorem compute_intensive_one_witness :
    realOps.sinI 0 = realOps.zero ∧ computeIntensive realOps 1 = realOps.zero :=
  ⟨by simp [realOps], compute_intensive_one realOps
    (by simp [realOps]) (by simp [realOps]) (by simp [realOps])⟩

/-- C6: for every integer `n`, the nested loops terminate: some finite
number of machine steps takes the initial state to a halted state, for
every interpretation of the double arithmetic. -/
theorem compute_intensive_terminates {F : Type} (ops : FP F) (n : Int) :
    ∃ k : Nat, step ops n (runSteps ops n k (initSt ops)) = Option.none :=
  ⟨n.toNat * (n.toNat + 1), (runSteps_final ops n).1⟩

/-- C9: for every `n` in the native signed 32-bit range, every reachable
loop state keeps both counters in `[0, max n 0]` — they never pass `n` —
and hence both counters always lie inside the native signed 32-bit range:
no counter increment can overflow the native `int`. -/
theorem loop_counters_safe {F : Type} (ops : FP F) (n : Int) (s : LoopSt F)
    (hlo : -(2 ^ 31) ≤ n) (hhi : n < 2 ^ 31) (h : Reachable ops n s) :
    (0 ≤ s.i ∧ s.i ≤ max n 0 ∧ 0 ≤ s.j ∧ s.j ≤ max n 0) ∧
      (-(2 ^ 31) ≤ s.i ∧ s.i < 2 ^ 31 ∧ -(2 ^ 31) ≤ s.j ∧ s.j < 2 ^ 31) := by
  obtain ⟨h1, h2, h3, h4⟩ := reachable_counters ops n s h
  refine ⟨⟨h1, h2, h3, h4⟩, ?_⟩
  omega

/-- The `n = 5` computation in the real interpretation factors (by exact
real arithmetic) into the product of the sine and cosine partial sums. -/
theorem computeIntensive_five :
    computeIntensive realOps 5 =
      (Real.sin 1 + Real.sin 2 + Real.sin 3 + Real.sin 4) *
        (1 + Real.cos 1 + Real.cos 2 + Real.cos 3 + Real.cos 4) := by
  have ht : (5 : Int).toNat = 5 := rfl
  have hr : List.range 5 = [0, 1, 2, 3, 4] := rfl
  simp only [computeIntensive, innerLoop, realOps, ht, hr, List.foldl_cons, List.foldl_nil]
  push_cast
  simp only [Real.sin_zero, Real.cos_zero]
  ring

/-- The first four nonzero sine terms sum to a positive value. -/
theorem sin_sum_pos : 0 < Real.sin 1 + Real.sin 2 + Real.sin 3 + Real.sin 4 := by
  have hπ1 : (3.1415 : ℝ) < Real.pi := Real.pi_gt_d4
  have hs1 : (3 / 4 : ℝ) < Real.sin 1 := by
    have h := Real.sin_gt_sub_cube (by norm_num : (0 : ℝ) < 1) (le_refl (1 : ℝ))
    norm_num at h
    linarith
  have hc1l : (1 / 2 : ℝ) ≤ Real.cos 1 := by
    have h := Real.one_sub_sq_div_two_le_cos (x := (1 : ℝ))
    norm_num at h
    linarith
  have hs2 : (3 / 4 : ℝ) < Real.sin 2 := by
    have h2 : Real.sin 2 = 2 * Real.sin 1 * Real.cos 1 := by
      have h := Real.sin_two_mul 1
      norm_num at h
      exact h
    rw [h2]
    nlinarith
  have hs3 : 0 < Real.sin 3 :=
    Real.sin_pos_of_pos_of_lt_pi (by norm_num) (by linarith)
  have hs4 : (-1 : ℝ) ≤ Real.sin 4 := Real.neg_one_le_sin 4
  linarith

/-- The cosine partial sum `1 + cos 1 + cos 2 + cos 3 + cos 4` is negative. -/
theorem cos_sum_neg : 1 + Real.cos 1 + Real.cos 2 + Real.cos 3 + Real.cos 4 < 0 := by
  have hπ1 : (3.1415 : ℝ) < Real.pi := Real.pi_gt_d4
  have hπ2 : Real.pi < (3.1416 : ℝ) := Real.pi_lt_d4
  have hc1 : Real.cos 1 ≤ (0.798 : ℝ) := by
    have habs : |(1 : ℝ)| ≤ Real.pi := by
      rw [abs_one]
      linarith
    have h := Real.cos_le_one_sub_mul_cos_sq habs
    norm_num at h
    have hπpos : (0 : ℝ) < Real.pi ^ 2 := by positivity
    have key : (0.202 : ℝ) ≤ 2 / Real.pi ^ 2 := by
      rw [le_div_iff₀ hπpos]
      nlinarith
    linarith
  have hc2 : Real.cos 2 ≤ -(0.348 : ℝ) := by
    have heq : Real.cos (Real.pi - 2) = -Real.cos 2 := Real.cos_pi_sub 2
    have hlb : 1 - (Real.pi - 2) ^ 2 / 2 ≤ Real.cos (Real.pi - 2) :=
      Real.one_sub_sq_div_two_le_cos
    nlinarith
  have hc3 : Real.cos 3 ≤ -(0.989 : ℝ) := by
    have heq : Real.cos (Real.pi - 3) = -Real.cos 3 := Real.cos_pi_sub 3
    have hlb : 1 - (Real.pi - 3) ^ 2 / 2 ≤ Real.cos (Real.pi - 3) :=
      Real.one_sub_sq_div_two_le_cos
    nlinarith
  have hc4 : Real.cos 4 ≤ -(0.631 : ℝ) := by
    have heq0 : Real.cos ((4 : ℝ) - Real.pi + Real.pi) = -Real.cos (4 - Real.pi) :=
      Real.cos_add_pi (4 - Real.pi)
    have h4 : (4 : ℝ) - Real.pi + Real.pi = 4 := by ring
    rw [h4] at heq0
    have hlb : 1 - ((4 : ℝ) - Real.pi) ^ 2 / 2 ≤ Real.cos (4 - Real.pi) :=
      Real.one_sub_sq_div_two_le_cos
    nlinarith
  linarith

/-- C7: the returned value is not monotone in `n`: in the real
interpretation, `compute_intensive(5)` is strictly below
`compute_intensive(0)` although `0 ≤ 0 < 5`. -/
theorem compute_value_not_monotonic :
    ∃ n m : Int, 0 ≤ n ∧ n < m ∧
      computeIntensive realOps m < computeIntensive realOps n := by
  refine ⟨0, 5, le_refl 0, by norm_num, ?_⟩
  have e0 : computeIntensive realOps 0 = 0 := rfl
  rw [e0, computeIntensive_five]
  exact mul_neg_of_pos_of_neg sin_sum_pos cos_sum_neg

/-- C8: for every `n` in the native signed 32-bit range, the accumulator of
every reachable loop state (real interpretation) is bounded in magnitude by
`n²`, and in particular stays strictly below `2¹⁰²⁴`, the double-precision
overflow threshold — every partial sum, and so the returned value, keeps a
finite magnitude. -/
theorem accumulator_stays_finite (n : Int) (s : LoopSt ℝ)
    (hlo : -(2 ^ 31) ≤ n) (hhi : n < 2 ^ 31) (h : Reachable realOps n s) :
    |s.acc| ≤ ((n.toNat : ℝ)) ^ 2 ∧ |s.acc| < 2 ^ 1024 := by
  obtain ⟨hacc, hcnt, hi0, hiM, hj0, hjM⟩ := reachable_acc_le n s h
  have hb : |s.acc| ≤ ((n.toNat : ℝ)) ^ 2 := by
    by_cases hn : 0 ≤ n
    · have h1 : ((s.i * n + s.j : Int) : ℝ) ≤ ((n * n : Int) : ℝ) := by
        exact_mod_cast hcnt
      have h2 : ((n * n : Int) : ℝ) = ((n.toNat : ℝ)) ^ 2 := by
        have hτ : ((n.toNat : Nat) : ℝ) = (n : ℝ) := by
          exact_mod_cast Int.toNat_of_nonneg hn
        push_cast
        rw [← hτ]
        ring
      rw [← h2]
      exact hacc.trans h1
    · have hmax : max n 0 = 0 := max_eq_right (by omega)
      have hij : s.i = 0 ∧ s.j = 0 := by omega
      have hz : ((s.i * n + s.j : Int) : ℝ) = 0 := by
        rw [hij.1, hij.2]
        norm_num
      have htn : n.toNat = 0 := Int.toNat_of_nonpos (by omega)
      rw [htn]
      rw [hz] at hacc
      simpa using hacc
  refine ⟨hb, lt_of_le_of_lt hb ?_⟩
  have h1 : (n.toNat : ℝ) ≤ 2 ^ 31 := by
    have h2 : n.toNat ≤ 2 ^ 31 := by omega
    exact_mod_cast h2
  have h0 : (0 : ℝ) ≤ (n.toNat : ℝ) := Nat.cast_nonneg _
  nlinarith [mul_le_mul h1 h1 h0 (by norm_num : (0 : ℝ) ≤ 2 ^ 31)]

theorem accumulator_stays_finite_witness :
    (-(2 ^ 31) ≤ (1 : Int)) ∧ ((1 : Int) < 2 ^ 31) ∧
      (|(initSt realOps).acc| ≤ (((1 : Int).toNat : ℝ)) ^ 2 ∧
        |(initSt realOps).acc| < 2 ^ 1024) :=
  ⟨by norm_num, by norm_num,
    accumulator_stays_finite 1 (initSt realOps) (by norm_num) (by norm_num) ⟨0, rfl⟩⟩

theorem loop_counters_safe_witness :
    (-(2 ^ 31) ≤ (2 : Int)) ∧ ((2 : Int) < 2 ^ 31) ∧
      ((0 ≤ (initSt realOps).i ∧ (initSt realOps).i ≤ max 2 0 ∧
          0 ≤ (initSt realOps).j ∧ (initSt realOps).j ≤ max 2 0) ∧
        (-(2 ^ 31) ≤ (initSt realOps).i ∧ (initSt realOps).i < 2 ^ 31 ∧
          -(2 ^ 31) ≤ (initSt realOps).j ∧ (initSt realOps).j < 2 ^ 31)) :=
  ⟨by norm_num, by norm_num,
    loop_counters_safe realOps 2 (initSt realOps) (by norm_num) (by norm_num) ⟨0, rfl⟩⟩

end ProfilingToolkit
